import Mathlib

/-!
Verification of the golden-data generator `AclNNInvocation/scripts/gen_data.py`.

The script draws an `[8, 2048]` tensor uniformly from `[1, 10)`, casts it to
IEEE-754 binary16 (half precision), computes the Mish activation
`x * tanh(log(1 + exp(x)))` elementwise with every intermediate held in half
precision (numpy's float16 ufunc semantics: each operation is computed and the
result rounded back to half precision), and writes both raw buffers to
`./AclNNInvocation/input/input_x.bin` and `./AclNNInvocation/output/golden.bin`.

Model:
* Half-precision values are modelled by `H16`: an exact rational payload for
  finite values plus `inf` / `neginf` / `nan`.  `roundH : ℚ → H16` is IEEE
  round-to-nearest, ties-to-even, for binary16 (subnormals via the clamped
  exponent, overflow to infinity at the 65520 threshold).
* `addH` / `mulH` are the IEEE operations: exact rational arithmetic on the
  payloads followed by `roundH`.
* The library transcendentals (`np.exp`, `np.log`, `np.tanh` on float16) are
  abstract functions `H16 → H16`; theorems that need numeric facts about them
  assume only interval bounds that the true rounded functions satisfy.
* File writing (`ndarray.tofile`) is modelled by an environment
  `env : String → Option ε` giving the filesystem error (if any) each target
  path would produce; `runGen` threads the two writes in program order.
-/

namespace MishGen

/-- A half-precision (IEEE binary16) value: a finite value carried as the exact
rational it denotes, or an infinity, or NaN. -/
inductive H16 where
  | fin : ℚ → H16
  | inf : H16
  | neginf : H16
  | nan : H16
  deriving DecidableEq, Repr

/-- Round a rational to the nearest integer, ties to even. -/
def rndE (q : ℚ) : ℤ :=
  if q - ⌊q⌋ < 1/2 then ⌊q⌋
  else if 1/2 < q - ⌊q⌋ then ⌊q⌋ + 1
  else if ⌊q⌋ % 2 = 0 then ⌊q⌋ else ⌊q⌋ + 1

/-- Round a positive rational to the binary16 grid (no overflow handling):
with `e` the binary exponent clamped at the subnormal threshold `-14`, the
significand `q · 2^(10-e)` is rounded to the nearest integer, ties to even. -/
def roundHalfPos (q : ℚ) : ℚ :=
  let e : ℤ := max (Int.log 2 q) (-14)
  (rndE (q * 2 ^ ((10:ℤ) - e)) : ℚ) * 2 ^ (e - 10)

/-- Cast a rational to binary16, IEEE round-to-nearest-even: values whose
magnitude reaches 65520 (the midpoint above the largest finite half 65504)
round to infinity. Models numpy's `astype(np.float16)` and the rounding step
of every float16 operation. -/
def roundH (q : ℚ) : H16 :=
  if q = 0 then .fin 0
  else if 0 < q then
    if 65520 ≤ q then .inf else .fin (roundHalfPos q)
  else
    if 65520 ≤ -q then .neginf else .fin (-roundHalfPos (-q))

/-- Half-precision addition: exact rational sum, rounded. -/
def addH : H16 → H16 → H16
  | .nan, _ => .nan
  | _, .nan => .nan
  | .fin a, .fin b => roundH (a + b)
  | .inf, .neginf => .nan
  | .neginf, .inf => .nan
  | .inf, _ => .inf
  | _, .inf => .inf
  | .neginf, _ => .neginf
  | _, .neginf => .neginf

/-- Half-precision multiplication: exact rational product, rounded. -/
def mulH : H16 → H16 → H16
  | .nan, _ => .nan
  | _, .nan => .nan
  | .fin a, .fin b => roundH (a * b)
  | .inf, .inf => .inf
  | .inf, .neginf => .neginf
  | .neginf, .inf => .neginf
  | .neginf, .neginf => .inf
  | .inf, .fin b => if b = 0 then .nan else if 0 < b then .inf else .neginf
  | .fin a, .inf => if a = 0 then .nan else if 0 < a then .inf else .neginf
  | .neginf, .fin b => if b = 0 then .nan else if 0 < b then .neginf else .inf
  | .fin a, .neginf => if a = 0 then .nan else if 0 < a then .neginf else .inf

/-- One Mish element as the generator computes it (gen_data.py line 9):
`golden = input_x * np.tanh(np.log(1 + np.exp(input_x)))`, with `eH`, `lH`,
`tH` the library float16 exponential, natural logarithm and hyperbolic
tangent. Every intermediate is a half-precision value and the final product is
rounded to half precision by `mulH`. -/
def mishElem (eH lH tH : H16 → H16) (x : H16) : H16 :=
  mulH x (tH (lH (addH (H16.fin 1) (eH x))))

/-- The spec's formula, stated in its own words: `input[i] * tanh(ln(1 +
exp(input[i])))` computed elementwise in the tensor's half-precision
representation, with the final stored value rounded to half precision. -/
def mishSpecFormula (eH lH tH : H16 → H16) (x : H16) : H16 :=
  mulH x (tH (lH (addH (H16.fin 1) (eH x))))

/-- The stored input tensor (gen_data.py line 7):
`np.random.uniform(1, 10, [8, 2048]).astype(np.float16)`. The random draw is
abstracted as `sample`; each element is cast to half precision. -/
def inputTensor (sample : Fin 8 → Fin 2048 → ℚ) : Fin 8 → Fin 2048 → H16 :=
  fun i j => roundH (sample i j)

/-- The golden tensor (gen_data.py line 9): Mish applied elementwise. -/
def goldenTensor (eH lH tH : H16 → H16) (x : Fin 8 → Fin 2048 → H16) :
    Fin 8 → Fin 2048 → H16 :=
  fun i j => mishElem eH lH tH (x i j)

/-- The rows of a tensor, in index order. -/
def tensorRows (t : Fin 8 → Fin 2048 → H16) : List (List H16) :=
  (List.finRange 8).map fun i => (List.finRange 2048).map fun j => t i j

/-- The raw element buffer of a tensor in row-major order, as `tofile` emits
it: just the elements, no header, no shape metadata, no type tag. -/
def flattenT (t : Fin 8 → Fin 2048 → H16) : List H16 :=
  (tensorRows t).flatten

/-- Size in bytes of a raw buffer of half-precision elements: two bytes per
element. -/
def fileBytes (l : List H16) : ℕ := 2 * l.length

/-- Target path of the input artifact (gen_data.py line 12). -/
def inputPath : String := "./AclNNInvocation/input/input_x.bin"

/-- Target path of the golden artifact (gen_data.py line 13). -/
def goldenPath : String := "./AclNNInvocation/output/golden.bin"

/-- Result of one run: the files written (path and raw buffer, in write
order) and the filesystem error that aborted the run, if any. -/
structure RunResult (ε : Type) where
  written : List (String × List H16)
  error : Option ε

/-- One run of `gen_golden_data_simple` (gen_data.py lines 7-13). `env` gives,
for each target path, the filesystem error (missing directory, permission
denied, ...) that writing it would raise, or `none` if the write succeeds;
`ndarray.tofile` raises such errors and the script installs no handler, so the
first error aborts the run and propagates unmodified. The input buffer is
written first, then the golden buffer, mirroring program order. -/
def runGen {ε : Type} (env : String → Option ε) (sample : Fin 8 → Fin 2048 → ℚ)
    (eH lH tH : H16 → H16) : RunResult ε :=
  let input := inputTensor sample
  let golden := goldenTensor eH lH tH input
  match env inputPath with
  | some err => ⟨[], some err⟩
  | none =>
    match env goldenPath with
    | some err => ⟨[(inputPath, flattenT input)], some err⟩
    | none => ⟨[(inputPath, flattenT input), (goldenPath, flattenT golden)], none⟩

/-! ### Facts about round-to-nearest-even -/

theorem le_rndE (q : ℚ) : q - 1/2 ≤ (rndE q : ℚ) := by
  unfold rndE
  have hf1 : (⌊q⌋ : ℚ) ≤ q := Int.floor_le q
  have hf2 : q < ⌊q⌋ + 1 := Int.lt_floor_add_one q
  split_ifs with h1 h2 h3 <;> push_cast <;> linarith

theorem rndE_le (q : ℚ) : (rndE q : ℚ) ≤ q + 1/2 := by
  unfold rndE
  have hf1 : (⌊q⌋ : ℚ) ≤ q := Int.floor_le q
  have hf2 : q < ⌊q⌋ + 1 := Int.lt_floor_add_one q
  split_ifs with h1 h2 h3 <;> push_cast <;> linarith

theorem rndE_le_of_le (q : ℚ) (n : ℤ) (h : q ≤ (n:ℚ)) : rndE q ≤ n := by
  have h1 : (rndE q : ℚ) ≤ n + 1/2 := le_trans (rndE_le q) (by linarith)
  have h2 : (rndE q : ℚ) < n + 1 := lt_of_le_of_lt h1 (by linarith)
  exact_mod_cast Int.lt_add_one_iff.mp (by exact_mod_cast h2)

theorem le_rndE_of_le (q : ℚ) (n : ℤ) (h : (n:ℚ) ≤ q) : n ≤ rndE q := by
  have h1 : (n:ℚ) - 1/2 ≤ rndE q := le_trans (by linarith) (le_rndE q)
  have h2 : (n:ℚ) - 1 < rndE q := lt_of_lt_of_le (by linarith) h1
  have h3 : n - 1 < rndE q := by exact_mod_cast h2
  omega

theorem log_ge_of_le (q : ℚ) (z : ℤ) (h0 : 0 < q) (h : (2:ℚ)^z ≤ q) :
    z ≤ Int.log 2 q := by
  refine (Int.zpow_le_iff_le_log (by norm_num) h0).mp ?_
  push_cast
  exact h

theorem log_lt_of_lt (q : ℚ) (z : ℤ) (h0 : 0 < q) (h : q < (2:ℚ)^z) :
    Int.log 2 q < z := by
  refine (Int.lt_zpow_iff_log_lt (by norm_num) h0).mp ?_
  push_cast
  exact h

theorem zpow_log_le (q : ℚ) (h0 : 0 < q) : (2:ℚ)^(Int.log 2 q) ≤ q := by
  have h : ((2:ℕ):ℚ)^(Int.log 2 q) ≤ q := Int.zpow_log_le_self (by norm_num) h0
  push_cast at h
  exact h

/-- Rounding a positive rational below `2^15` keeps it finite-positive, within
`±2^(e-11) ≤ ±8` of the original and at least the correctly-placed power of
two below it. -/
theorem roundHalfPos_bounds (q : ℚ) (hlo : (2:ℚ)^(-(14:ℤ)) ≤ q) (hhi : q < 32768) :
    (2:ℚ)^(Int.log 2 q) ≤ roundHalfPos q ∧ q - 8 ≤ roundHalfPos q ∧
      roundHalfPos q ≤ q + 8 := by
  have h0 : 0 < q := lt_of_lt_of_le (by positivity) hlo
  have hemin : (-14:ℤ) ≤ Int.log 2 q := log_ge_of_le q (-14) h0 hlo
  have hemax : Int.log 2 q ≤ 14 := by
    have : Int.log 2 q < 15 := log_lt_of_lt q 15 h0 (by norm_num; linarith)
    omega
  have hmax : max (Int.log 2 q) (-14) = Int.log 2 q := max_eq_left hemin
  have hrw : roundHalfPos q =
      (rndE (q * 2 ^ ((10:ℤ) - Int.log 2 q)) : ℚ) * 2 ^ (Int.log 2 q - 10) := by
    unfold roundHalfPos
    rw [hmax]
  have hpow : (0:ℚ) < 2 ^ ((10:ℤ) - Int.log 2 q) := by positivity
  have hpow2 : (0:ℚ) < 2 ^ (Int.log 2 q - 10) := by positivity
  have hcancel : (2:ℚ) ^ ((10:ℤ) - Int.log 2 q) * 2 ^ (Int.log 2 q - 10) = 1 := by
    rw [← zpow_add₀ (by norm_num : (2:ℚ) ≠ 0)]
    norm_num
  have hs1 : (2:ℚ)^(10:ℤ) ≤ q * 2 ^ ((10:ℤ) - Int.log 2 q) := by
    have step := mul_le_mul_of_nonneg_right (zpow_log_le q h0) (le_of_lt hpow)
    calc (2:ℚ)^(10:ℤ) = 2^(Int.log 2 q) * 2^((10:ℤ) - Int.log 2 q) := by
              rw [← zpow_add₀ (by norm_num : (2:ℚ) ≠ 0)]; ring_nf
      _ ≤ q * 2 ^ ((10:ℤ) - Int.log 2 q) := step
  refine ⟨?_, ?_, ?_⟩
  · rw [hrw]
    have h1024 : ((1024:ℤ):ℚ) ≤ q * 2 ^ ((10:ℤ) - Int.log 2 q) := by
      push_cast
      calc (1024:ℚ) = 2^(10:ℤ) := by norm_num
        _ ≤ _ := hs1
    have hge := le_rndE_of_le _ 1024 h1024
    have h2 : ((1024:ℤ):ℚ) ≤ (rndE (q * 2 ^ ((10:ℤ) - Int.log 2 q)) : ℚ) := by
      exact_mod_cast hge
    calc (2:ℚ)^(Int.log 2 q) = 1024 * 2^(Int.log 2 q - 10) := by
          rw [show (1024:ℚ) = 2^(10:ℤ) by norm_num,
              ← zpow_add₀ (by norm_num : (2:ℚ) ≠ 0)]
          ring_nf
      _ ≤ _ := by
          apply mul_le_mul_of_nonneg_right _ (le_of_lt hpow2)
          exact_mod_cast h2
  · rw [hrw]
    have hr := le_rndE (q * 2 ^ ((10:ℤ) - Int.log 2 q))
    have step := mul_le_mul_of_nonneg_right hr (le_of_lt hpow2)
    have hhalf : (2:ℚ)^(Int.log 2 q - 11) = 2^(Int.log 2 q - 10) / 2 := by
      rw [eq_div_iff (by norm_num : (2:ℚ) ≠ 0),
          ← zpow_add_one₀ (by norm_num : (2:ℚ) ≠ 0)]
      ring_nf
    have heq : (q * 2 ^ ((10:ℤ) - Int.log 2 q) - 1/2) * 2 ^ (Int.log 2 q - 10)
        = q - 2^(Int.log 2 q - 11) := by
      have h1 : (q * 2 ^ ((10:ℤ) - Int.log 2 q) - 1/2) * 2 ^ (Int.log 2 q - 10)
          = q * (2 ^ ((10:ℤ) - Int.log 2 q) * 2 ^ (Int.log 2 q - 10))
            - 2 ^ (Int.log 2 q - 10) / 2 := by ring
      rw [h1, hcancel, mul_one, hhalf]
    have hsmall : (2:ℚ)^(Int.log 2 q - 11) ≤ 8 := by
      calc (2:ℚ)^(Int.log 2 q - 11) ≤ 2^(3:ℤ) := by
            apply zpow_le_zpow_right₀ (by norm_num)
            omega
        _ = 8 := by norm_num
    rw [heq] at step
    linarith
  · rw [hrw]
    have hr := rndE_le (q * 2 ^ ((10:ℤ) - Int.log 2 q))
    have step := mul_le_mul_of_nonneg_right hr (le_of_lt hpow2)
    have hhalf : (2:ℚ)^(Int.log 2 q - 11) = 2^(Int.log 2 q - 10) / 2 := by
      rw [eq_div_iff (by norm_num : (2:ℚ) ≠ 0),
          ← zpow_add_one₀ (by norm_num : (2:ℚ) ≠ 0)]
      ring_nf
    have heq : (q * 2 ^ ((10:ℤ) - Int.log 2 q) + 1/2) * 2 ^ (Int.log 2 q - 10)
        = q + 2^(Int.log 2 q - 11) := by
      have h1 : (q * 2 ^ ((10:ℤ) - Int.log 2 q) + 1/2) * 2 ^ (Int.log 2 q - 10)
          = q * (2 ^ ((10:ℤ) - Int.log 2 q) * 2 ^ (Int.log 2 q - 10))
            + 2 ^ (Int.log 2 q - 10) / 2 := by ring
      rw [h1, hcancel, mul_one, hhalf]
    have hsmall : (2:ℚ)^(Int.log 2 q - 11) ≤ 8 := by
      calc (2:ℚ)^(Int.log 2 q - 11) ≤ 2^(3:ℤ) := by
            apply zpow_le_zpow_right₀ (by norm_num)
            omega
        _ = 8 := by norm_num
    rw [heq] at step
    linarith

/-- Rounding never crosses a bound that lies on the binary16 grid of the
argument's binade. -/
theorem roundHalfPos_le_rep (q : ℚ) (m : ℤ) (hlo : (2:ℚ)^(-(14:ℤ)) ≤ q)
    (hm : q ≤ (m:ℚ) * 2 ^ (Int.log 2 q - 10)) :
    roundHalfPos q ≤ (m:ℚ) * 2 ^ (Int.log 2 q - 10) := by
  have h0 : 0 < q := lt_of_lt_of_le (by positivity) hlo
  have hemin : (-14:ℤ) ≤ Int.log 2 q := log_ge_of_le q (-14) h0 hlo
  have hmax : max (Int.log 2 q) (-14) = Int.log 2 q := max_eq_left hemin
  have hrw : roundHalfPos q =
      (rndE (q * 2 ^ ((10:ℤ) - Int.log 2 q)) : ℚ) * 2 ^ (Int.log 2 q - 10) := by
    unfold roundHalfPos
    rw [hmax]
  have hpow : (0:ℚ) < 2 ^ ((10:ℤ) - Int.log 2 q) := by positivity
  have hpow2 : (0:ℚ) < 2 ^ (Int.log 2 q - 10) := by positivity
  have hcancel : (2:ℚ) ^ (Int.log 2 q - 10) * 2 ^ ((10:ℤ) - Int.log 2 q) = 1 := by
    rw [← zpow_add₀ (by norm_num : (2:ℚ) ≠ 0)]
    ring_nf
  have hs : q * 2 ^ ((10:ℤ) - Int.log 2 q) ≤ (m:ℚ) := by
    have step := mul_le_mul_of_nonneg_right hm (le_of_lt hpow)
    calc q * 2 ^ ((10:ℤ) - Int.log 2 q)
        ≤ (m:ℚ) * 2 ^ (Int.log 2 q - 10) * 2 ^ ((10:ℤ) - Int.log 2 q) := step
      _ = (m:ℚ) := by rw [mul_assoc, hcancel, mul_one]
  have hle := rndE_le_of_le _ m hs
  rw [hrw]
  apply mul_le_mul_of_nonneg_right _ (le_of_lt hpow2)
  exact_mod_cast hle

theorem roundH_eq_fin (q : ℚ) (h0 : 0 < q) (hhi : q < 65520) :
    roundH q = .fin (roundHalfPos q) := by
  unfold roundH
  rw [if_neg (ne_of_gt h0), if_pos h0, if_neg (not_le.mpr hhi)]

/-- Casting a rational in `[2^z, 2^15)` (with `z ≥ -14`) to binary16 yields a
finite value at least `2^z` and within `±8` of the original. -/
theorem roundH_ge_pow (q : ℚ) (z : ℤ) (hz : (-14:ℤ) ≤ z) (hq : (2:ℚ)^z ≤ q)
    (hhi : q < 32768) :
    ∃ r, roundH q = .fin r ∧ (2:ℚ)^z ≤ r ∧ q - 8 ≤ r ∧ r ≤ q + 8 := by
  have h0 : 0 < q := lt_of_lt_of_le (by positivity) hq
  have hlo : (2:ℚ)^(-(14:ℤ)) ≤ q :=
    le_trans (zpow_le_zpow_right₀ (by norm_num) hz) hq
  obtain ⟨h1, h2, h3⟩ := roundHalfPos_bounds q hlo hhi
  have hz2 : z ≤ Int.log 2 q := log_ge_of_le q z h0 hq
  exact ⟨roundHalfPos q, roundH_eq_fin q h0 (by linarith),
    le_trans (zpow_le_zpow_right₀ (by norm_num) hz2) h1, h2, h3⟩

/-- An element sampled in `[1, 10)` is stored as a finite half-precision value
in `[1, 10]` (rounding can reach 10 exactly, but no further: 10 is on the
binary16 grid). -/
theorem roundH_input_range (q : ℚ) (h1 : 1 ≤ q) (h2 : q < 10) :
    ∃ r, roundH q = .fin r ∧ 1 ≤ r ∧ r ≤ 10 := by
  have h0 : (0:ℚ) < q := by linarith
  have hlo : (2:ℚ)^(-(14:ℤ)) ≤ q := le_trans (by norm_num) h1
  have he0 : (0:ℤ) ≤ Int.log 2 q := log_ge_of_le q 0 h0 (by simpa using h1)
  refine ⟨roundHalfPos q, roundH_eq_fin q h0 (by linarith), ?_, ?_⟩
  · have hlb := (roundHalfPos_bounds q hlo (by linarith)).1
    calc (1:ℚ) = 2^(0:ℤ) := by norm_num
      _ ≤ 2^(Int.log 2 q) := zpow_le_zpow_right₀ (by norm_num) he0
      _ ≤ roundHalfPos q := hlb
  · have he3 : Int.log 2 q ≤ 3 := by
      have h4 : Int.log 2 q < 4 := log_lt_of_lt q 4 h0 (by norm_num; linarith)
      omega
    have hexp : (((10 - Int.log 2 q).toNat : ℤ)) = 10 - Int.log 2 q :=
      Int.toNat_of_nonneg (by omega)
    have hrep : ((10 * 2 ^ ((10 - Int.log 2 q).toNat) : ℤ) : ℚ)
        * 2 ^ (Int.log 2 q - 10) = 10 := by
      push_cast
      rw [mul_assoc, ← zpow_natCast (2:ℚ) ((10 - Int.log 2 q).toNat), hexp,
          ← zpow_add₀ (by norm_num : (2:ℚ) ≠ 0)]
      norm_num
    have hle := roundHalfPos_le_rep q (10 * 2 ^ ((10 - Int.log 2 q).toNat)) hlo
      (by rw [hrep]; linarith)
    rw [hrep] at hle
    exact hle

/-! ### A concrete rounding that escapes the half-open sampling interval -/

theorem log_9999 : Int.log 2 ((9999:ℚ)/1000) = 3 := by
  have h0 : (0:ℚ) < 9999/1000 := by norm_num
  have h1 : (3:ℤ) ≤ Int.log 2 ((9999:ℚ)/1000) := log_ge_of_le _ 3 h0 (by norm_num)
  have h2 : Int.log 2 ((9999:ℚ)/1000) < 4 := log_lt_of_lt _ 4 h0 (by norm_num)
  omega

theorem floor_9999 : ⌊(9999:ℚ)/1000 * 2 ^ ((10:ℤ) - 3)⌋ = 1279 := by
  rw [show ((9999:ℚ)/1000 * 2 ^ ((10:ℤ) - 3)) = 159984/125 by norm_num]
  rw [Int.floor_eq_iff]
  norm_num

theorem rndE_9999 : rndE ((9999:ℚ)/1000 * 2 ^ ((10:ℤ) - 3)) = 1280 := by
  unfold rndE
  rw [floor_9999]
  rw [show ((9999:ℚ)/1000 * 2 ^ ((10:ℤ) - 3)) = 159984/125 by norm_num]
  norm_num

/-- Sampling can draw 9.999, which binary16 rounds up to exactly 10. -/
theorem rhp_9999 : roundHalfPos ((9999:ℚ)/1000) = 10 := by
  have hmax : max (Int.log 2 ((9999:ℚ)/1000)) (-14) = 3 := by
    rw [log_9999]
    norm_num
  have hrw : roundHalfPos ((9999:ℚ)/1000)
      = (rndE ((9999:ℚ)/1000 * 2 ^ ((10:ℤ) - 3)) : ℚ) * 2 ^ ((3:ℤ) - 10) := by
    unfold roundHalfPos
    rw [hmax]
  rw [hrw, rndE_9999]
  norm_num

/-! ### The half-precision Mish pipeline on stored inputs

The library transcendentals are abstracted by `eH`, `lH`, `tH`; the chain
lemma assumes each returns, on the interval it is ever called on, a finite
value inside an interval that contains every correctly-rounded half-precision
result of the true function there (`exp [1,10] ⊆ [2.71.., 22032]`,
`log [1.5, 22057] ⊆ [0.40.., 10.01]`, `tanh [1/3, 12] ⊆ [0.32.., 1]`, each
with generous slack). -/

theorem mish_chain (eH lH tH : H16 → H16)
    (hexp : ∀ q : ℚ, 1 ≤ q → q ≤ 10 → ∃ r, eH (.fin q) = .fin r ∧ 2 ≤ r ∧ r ≤ 22048)
    (hlog : ∀ q : ℚ, 3/2 ≤ q → q ≤ 22057 → ∃ r, lH (.fin q) = .fin r ∧ 1/3 ≤ r ∧ r ≤ 12)
    (htanh : ∀ q : ℚ, 1/3 ≤ q → q ≤ 12 → ∃ r, tH (.fin q) = .fin r ∧ 3/10 ≤ r ∧ r ≤ 1)
    (x : ℚ) (hx1 : 1 ≤ x) (hx2 : x ≤ 10) :
    ∃ e1 a1 l1 t1 g, eH (.fin x) = .fin e1 ∧ addH (.fin 1) (.fin e1) = .fin a1 ∧
      lH (.fin a1) = .fin l1 ∧ tH (.fin l1) = .fin t1 ∧
      mishElem eH lH tH (.fin x) = .fin g ∧ 0 < g := by
  obtain ⟨e1, he1, he1lo, he1hi⟩ := hexp x hx1 hx2
  have hs1 : (2:ℚ)^(1:ℤ) ≤ 1 + e1 := by
    norm_num
    linarith
  obtain ⟨a1, ha1, ha1lo, ha1l, ha1h⟩ :=
    roundH_ge_pow (1 + e1) 1 (by norm_num) hs1 (by linarith)
  have ha1lo2 : (2:ℚ) ≤ a1 := by
    calc (2:ℚ) = 2^(1:ℤ) := by norm_num
      _ ≤ a1 := ha1lo
  obtain ⟨l1, hl1, hl1lo, hl1hi⟩ := hlog a1 (by linarith) (by linarith)
  obtain ⟨t1, ht1, ht1lo, ht1hi⟩ := htanh l1 hl1lo hl1hi
  have hxt1 : (2:ℚ)^(-(2:ℤ)) ≤ x * t1 := by
    have hp : (3:ℚ)/10 ≤ x * t1 := by nlinarith
    calc (2:ℚ)^(-(2:ℤ)) = 1/4 := by norm_num
      _ ≤ 3/10 := by norm_num
      _ ≤ x * t1 := hp
  have hxt2 : x * t1 < 32768 := by nlinarith
  obtain ⟨g, hg, hglo, hgl, hgh⟩ := roundH_ge_pow (x * t1) (-2) (by norm_num) hxt1 hxt2
  have ha1fin : addH (H16.fin 1) (H16.fin e1) = H16.fin a1 := ha1
  have hgfin : mishElem eH lH tH (H16.fin x) = H16.fin g := by
    unfold mishElem
    rw [he1, ha1fin, hl1, ht1]
    exact hg
  have hgpos : (0:ℚ) < g := lt_of_lt_of_le (by positivity) hglo
  exact ⟨e1, a1, l1, t1, g, he1, ha1fin, hl1, ht1, hgfin, hgpos⟩

/-! ### Tensor shape -/

theorem tensorRows_length (t : Fin 8 → Fin 2048 → H16) : (tensorRows t).length = 8 := by
  simp only [tensorRows, List.length_map, List.length_finRange]

theorem tensorRows_row_length (t : Fin 8 → Fin 2048 → H16) :
    ∀ row ∈ tensorRows t, row.length = 2048 := by
  intro row hrow
  simp only [tensorRows, List.mem_map] at hrow
  obtain ⟨i, _, hi⟩ := hrow
  rw [← hi]
  simp only [List.length_map, List.length_finRange]

theorem flattenT_length (t : Fin 8 → Fin 2048 → H16) : (flattenT t).length = 16384 := by
  simp only [flattenT, tensorRows, List.length_flatten, List.map_map, Function.comp_def,
    List.length_map, List.length_finRange, List.map_const', List.sum_replicate, smul_eq_mul]

/-! ### Tighter rounding error bounds

`roundHalfPos` is within half an ulp, i.e. `2^(e-11)` for a value in the
binade `[2^e, 2^(e+1))`; these sharper bounds support the soundness lemmas
for the transcendental-interval hypotheses used by C6 and C10. -/

theorem roundHalfPos_err (q : ℚ) (hlo : (2:ℚ)^(-(14:ℤ)) ≤ q) :
    q - 2^(Int.log 2 q - 11) ≤ roundHalfPos q ∧
      roundHalfPos q ≤ q + 2^(Int.log 2 q - 11) := by
  have h0 : 0 < q := lt_of_lt_of_le (by positivity) hlo
  have hemin : (-14:ℤ) ≤ Int.log 2 q := log_ge_of_le q (-14) h0 hlo
  have hmax : max (Int.log 2 q) (-14) = Int.log 2 q := max_eq_left hemin
  have hrw : roundHalfPos q =
      (rndE (q * 2 ^ ((10:ℤ) - Int.log 2 q)) : ℚ) * 2 ^ (Int.log 2 q - 10) := by
    unfold roundHalfPos
    rw [hmax]
  have hpow2 : (0:ℚ) < 2 ^ (Int.log 2 q - 10) := by positivity
  have hcancel : (2:ℚ) ^ ((10:ℤ) - Int.log 2 q) * 2 ^ (Int.log 2 q - 10) = 1 := by
    rw [← zpow_add₀ (by norm_num : (2:ℚ) ≠ 0)]
    norm_num
  have hhalf : (2:ℚ)^(Int.log 2 q - 11) = 2^(Int.log 2 q - 10) / 2 := by
    rw [eq_div_iff (by norm_num : (2:ℚ) ≠ 0),
        ← zpow_add_one₀ (by norm_num : (2:ℚ) ≠ 0)]
    ring_nf
  constructor
  · have hr := le_rndE (q * 2 ^ ((10:ℤ) - Int.log 2 q))
    have step := mul_le_mul_of_nonneg_right hr (le_of_lt hpow2)
    have heq : (q * 2 ^ ((10:ℤ) - Int.log 2 q) - 1/2) * 2 ^ (Int.log 2 q - 10)
        = q - 2^(Int.log 2 q - 11) := by
      have h1 : (q * 2 ^ ((10:ℤ) - Int.log 2 q) - 1/2) * 2 ^ (Int.log 2 q - 10)
          = q * (2 ^ ((10:ℤ) - Int.log 2 q) * 2 ^ (Int.log 2 q - 10))
            - 2 ^ (Int.log 2 q - 10) / 2 := by ring
      rw [h1, hcancel, mul_one, hhalf]
    rw [heq] at step
    rw [hrw]
    exact step
  · have hr := rndE_le (q * 2 ^ ((10:ℤ) - Int.log 2 q))
    have step := mul_le_mul_of_nonneg_right hr (le_of_lt hpow2)
    have heq : (q * 2 ^ ((10:ℤ) - Int.log 2 q) + 1/2) * 2 ^ (Int.log 2 q - 10)
        = q + 2^(Int.log 2 q - 11) := by
      have h1 : (q * 2 ^ ((10:ℤ) - Int.log 2 q) + 1/2) * 2 ^ (Int.log 2 q - 10)
          = q * (2 ^ ((10:ℤ) - Int.log 2 q) * 2 ^ (Int.log 2 q - 10))
            + 2 ^ (Int.log 2 q - 10) / 2 := by ring
      rw [h1, hcancel, mul_one, hhalf]
    rw [heq] at step
    rw [hrw]
    exact step

theorem log_le_of_le (q : ℚ) (z : ℤ) (h0 : 0 < q) (hq : q < (2:ℚ)^(z+1)) :
    Int.log 2 q ≤ z := by
  have := log_lt_of_lt q (z+1) h0 hq
  omega

/-- Rounding never exceeds a power of two that bounds the argument. -/
theorem roundHalfPos_le_pow (q : ℚ) (z : ℤ) (hlo : (2:ℚ)^(-(14:ℤ)) ≤ q)
    (hq : q ≤ (2:ℚ)^z) : roundHalfPos q ≤ (2:ℚ)^z := by
  have h0 : 0 < q := lt_of_lt_of_le (by positivity) hlo
  have hez : Int.log 2 q ≤ z := by
    refine log_le_of_le q z h0 (lt_of_le_of_lt hq ?_)
    exact zpow_lt_zpow_right₀ (by norm_num) (by omega)
  have hexp : (((z + 10 - Int.log 2 q).toNat : ℤ)) = z + 10 - Int.log 2 q :=
    Int.toNat_of_nonneg (by omega)
  have hrep : ((2 ^ ((z + 10 - Int.log 2 q).toNat) : ℤ) : ℚ)
      * 2 ^ (Int.log 2 q - 10) = 2 ^ z := by
    push_cast
    rw [← zpow_natCast (2:ℚ) ((z + 10 - Int.log 2 q).toNat), hexp,
        ← zpow_add₀ (by norm_num : (2:ℚ) ≠ 0)]
    ring_nf
  have hle := roundHalfPos_le_rep q (2 ^ ((z + 10 - Int.log 2 q).toNat)) hlo
    (by rw [hrep]; exact hq)
  rw [hrep] at hle
  exact hle

/-! ### Soundness of the transcendental interval hypotheses

The interval hypotheses assumed by C6 and C10 about the library's
half-precision `exp`, `log`, `tanh` hold of ANY implementation that returns
the binary16 rounding of some rational within `1/32` (resp. `1/64` for
`tanh`) of the true real function — numpy's float16 ufuncs, which compute in
float32 and round back, are far more accurate than that. -/

theorem exp_ten_ub : Real.exp 10 ≤ 22027 := by
  have h1 : Real.exp 10 = Real.exp 1 ^ (10:ℕ) := by
    rw [← Real.exp_nat_mul]
    norm_num
  rw [h1]
  calc Real.exp 1 ^ (10:ℕ) ≤ (2.7182818286:ℝ) ^ (10:ℕ) :=
        pow_le_pow_left₀ (Real.exp_pos 1).le Real.exp_one_lt_d9.le 10
    _ ≤ 22027 := by norm_num

theorem exp_eleven_lb : (22057:ℝ) ≤ Real.exp 11 := by
  have h1 : Real.exp 11 = Real.exp 1 ^ (11:ℕ) := by
    rw [← Real.exp_nat_mul]
    norm_num
  rw [h1]
  calc (22057:ℝ) ≤ (2.7182818283:ℝ) ^ (11:ℕ) := by norm_num
    _ ≤ Real.exp 1 ^ (11:ℕ) := pow_le_pow_left₀ (by norm_num) Real.exp_one_gt_d9.le 11

theorem log_three_half_lb : (37/100:ℝ) ≤ Real.log (3/2) := by
  rw [Real.le_log_iff_exp_le (by norm_num)]
  have h100 : Real.exp (37/100) ^ (100:ℕ) = Real.exp 37 := by
    rw [← Real.exp_nat_mul]
    norm_num
  have h37 : Real.exp 37 = Real.exp 1 ^ (37:ℕ) := by
    rw [← Real.exp_nat_mul]
    norm_num
  have hb : Real.exp (37/100) ^ (100:ℕ) ≤ (3/2:ℝ) ^ (100:ℕ) := by
    rw [h100, h37]
    calc Real.exp 1 ^ (37:ℕ) ≤ (2.7182818286:ℝ) ^ (37:ℕ) :=
          pow_le_pow_left₀ (Real.exp_pos 1).le Real.exp_one_lt_d9.le 37
      _ ≤ (3/2:ℝ) ^ (100:ℕ) := by norm_num
  exact (pow_le_pow_iff_left₀ (Real.exp_pos _).le (by norm_num) (by norm_num)).mp hb

theorem exp_two_thirds_lb : (1.94:ℝ) ≤ Real.exp (2/3) := by
  have h3 : Real.exp (2/3) ^ (3:ℕ) = Real.exp 2 := by
    rw [← Real.exp_nat_mul]
    norm_num
  have h2 : Real.exp 2 = Real.exp 1 ^ (2:ℕ) := by
    rw [← Real.exp_nat_mul]
    norm_num
  have hb : (1.94:ℝ) ^ (3:ℕ) ≤ Real.exp (2/3) ^ (3:ℕ) := by
    rw [h3, h2]
    calc (1.94:ℝ) ^ (3:ℕ) ≤ (2.7182818283:ℝ) ^ (2:ℕ) := by norm_num
      _ ≤ Real.exp 1 ^ (2:ℕ) := pow_le_pow_left₀ (by norm_num) Real.exp_one_gt_d9.le 2
  exact (pow_le_pow_iff_left₀ (by norm_num) (Real.exp_pos _).le (by norm_num)).mp hb

theorem tanh_ratio (x : ℝ) :
    Real.tanh x = (Real.exp x ^ (2:ℕ) - 1)/(Real.exp x ^ (2:ℕ) + 1) := by
  rw [Real.tanh_eq_sinh_div_cosh, Real.sinh_eq, Real.cosh_eq, Real.exp_neg]
  have h0 : Real.exp x ≠ 0 := (Real.exp_pos x).ne'
  field_simp
  ring

theorem tanh_ge_on (x : ℝ) (hx : 1/3 ≤ x) : (47:ℝ)/147 ≤ Real.tanh x := by
  have hu : (1.94:ℝ) ≤ Real.exp x ^ (2:ℕ) := by
    have h2x : Real.exp x ^ (2:ℕ) = Real.exp (2*x) := by
      rw [← Real.exp_nat_mul]
      norm_num
    rw [h2x]
    exact le_trans exp_two_thirds_lb (Real.exp_le_exp.mpr (by linarith))
  rw [tanh_ratio]
  rw [div_le_div_iff₀ (by norm_num) (by nlinarith)]
  nlinarith

theorem tanh_le_one_real (x : ℝ) : Real.tanh x ≤ 1 := by
  have hpos : (0:ℝ) < Real.exp x ^ (2:ℕ) + 1 := by positivity
  rw [tanh_ratio, div_le_one hpos]
  linarith

/-- Any `exp` implementation given by rounding a rational within `1/32` of
the true exponential satisfies the interval hypothesis used by C6 and C10. -/
theorem exp_hyp_sound (eH : H16 → H16)
    (hm : ∀ q : ℚ, 1 ≤ q → q ≤ 10 →
      ∃ p : ℚ, |(p:ℝ) - Real.exp (q:ℝ)| ≤ 1/32 ∧ eH (.fin q) = roundH p) :
    ∀ q : ℚ, 1 ≤ q → q ≤ 10 → ∃ r, eH (.fin q) = .fin r ∧ 2 ≤ r ∧ r ≤ 22048 := by
  intro q h1 h2
  obtain ⟨p, hp, hep⟩ := hm q h1 h2
  rw [abs_le] at hp
  have hexplo : (2.7:ℝ) ≤ Real.exp (q:ℝ) := by
    have hmono : Real.exp 1 ≤ Real.exp (q:ℝ) := Real.exp_le_exp.mpr (by exact_mod_cast h1)
    have := Real.exp_one_gt_d9
    linarith
  have hexphi : Real.exp (q:ℝ) ≤ 22027 := by
    have hmono : Real.exp (q:ℝ) ≤ Real.exp 10 := Real.exp_le_exp.mpr (by exact_mod_cast h2)
    linarith [exp_ten_ub]
  have hp1 : (5/2:ℚ) ≤ p := by
    have hcast : ((5/2:ℚ):ℝ) ≤ (p:ℝ) := by push_cast; linarith [hp.1]
    exact_mod_cast hcast
  have hp2 : p ≤ 22028 := by
    have hcast : (p:ℝ) ≤ ((22028:ℚ):ℝ) := by push_cast; linarith [hp.2]
    exact_mod_cast hcast
  obtain ⟨r, hr, hrlo, _, hrh⟩ :=
    roundH_ge_pow p 1 (by norm_num) (by norm_num; linarith) (by linarith)
  refine ⟨r, by rw [hep, hr], ?_, by linarith⟩
  calc (2:ℚ) = 2^(1:ℤ) := by norm_num
    _ ≤ r := hrlo

/-- Any `log` implementation given by rounding a rational within `1/32` of
the true logarithm satisfies the interval hypothesis used by C6 and C10. -/
theorem log_hyp_sound (lH : H16 → H16)
    (hm : ∀ q : ℚ, 3/2 ≤ q → q ≤ 22057 →
      ∃ p : ℚ, |(p:ℝ) - Real.log (q:ℝ)| ≤ 1/32 ∧ lH (.fin q) = roundH p) :
    ∀ q : ℚ, 3/2 ≤ q → q ≤ 22057 → ∃ r, lH (.fin q) = .fin r ∧ 1/3 ≤ r ∧ r ≤ 12 := by
  intro q h1 h2
  obtain ⟨p, hp, hlp⟩ := hm q h1 h2
  rw [abs_le] at hp
  have h1R : ((3/2:ℚ):ℝ) ≤ (q:ℝ) := Rat.cast_le.mpr h1
  push_cast at h1R
  have hloglo : (37/100:ℝ) ≤ Real.log (q:ℝ) :=
    le_trans log_three_half_lb (Real.log_le_log (by norm_num) h1R)
  have hloghi : Real.log (q:ℝ) ≤ 11 := by
    have hqpos : (0:ℝ) < (q:ℝ) := by linarith
    rw [Real.log_le_iff_le_exp hqpos]
    have h2R : (q:ℝ) ≤ ((22057:ℚ):ℝ) := Rat.cast_le.mpr h2
    push_cast at h2R
    linarith [exp_eleven_lb]
  have hp1 : (271/800:ℚ) ≤ p := by
    have hcast : ((271/800:ℚ):ℝ) ≤ (p:ℝ) := by push_cast; linarith [hp.1]
    exact_mod_cast hcast
  have hp2 : p ≤ 12 - 1/4 := by
    have hcast : (p:ℝ) ≤ ((12 - 1/4:ℚ):ℝ) := by push_cast; linarith [hp.2]
    exact_mod_cast hcast
  have h0p : (0:ℚ) < p := by linarith
  have hlo14 : (2:ℚ)^(-(14:ℤ)) ≤ p := le_trans (by norm_num) hp1
  have he3 : Int.log 2 p ≤ 3 := log_le_of_le p 3 h0p (by norm_num; linarith)
  have herrQ : (2:ℚ)^(Int.log 2 p - 11) ≤ 1/256 := by
    calc (2:ℚ)^(Int.log 2 p - 11) ≤ 2^(-(8:ℤ)) :=
          zpow_le_zpow_right₀ (by norm_num) (by omega)
      _ = 1/256 := by norm_num
  obtain ⟨herr1, herr2⟩ := roundHalfPos_err p hlo14
  refine ⟨roundHalfPos p, ?_, ?_, ?_⟩
  · rw [hlp, roundH_eq_fin p h0p (by linarith)]
  · linarith
  · linarith

/-- Any `tanh` implementation given by rounding a rational within `1/64` of
the true hyperbolic tangent, and never exceeding 1 before rounding (float
tanh saturates below 1), satisfies the interval hypothesis used by C6 and
C10. -/
theorem tanh_hyp_sound (tH : H16 → H16)
    (hm : ∀ q : ℚ, 1/3 ≤ q → q ≤ 12 →
      ∃ p : ℚ, |(p:ℝ) - Real.tanh (q:ℝ)| ≤ 1/64 ∧ p ≤ 1 ∧ tH (.fin q) = roundH p) :
    ∀ q : ℚ, 1/3 ≤ q → q ≤ 12 → ∃ r, tH (.fin q) = .fin r ∧ 3/10 ≤ r ∧ r ≤ 1 := by
  intro q h1 h2
  obtain ⟨p, hp, hp1, htp⟩ := hm q h1 h2
  rw [abs_le] at hp
  have h1R : ((1/3:ℚ):ℝ) ≤ (q:ℝ) := Rat.cast_le.mpr h1
  push_cast at h1R
  have htlo : (47/147:ℝ) ≤ Real.tanh (q:ℝ) := tanh_ge_on (q:ℝ) h1R
  have hplo : (2861/9408:ℚ) ≤ p := by
    have hcast : ((2861/9408:ℚ):ℝ) ≤ (p:ℝ) := by push_cast; linarith [hp.1]
    exact_mod_cast hcast
  have h0p : (0:ℚ) < p := by linarith
  have hlo14 : (2:ℚ)^(-(14:ℤ)) ≤ p := le_trans (by norm_num) hplo
  have he0 : Int.log 2 p ≤ 0 := log_le_of_le p 0 h0p (by norm_num; linarith)
  have herrQ : (2:ℚ)^(Int.log 2 p - 11) ≤ 1/2048 := by
    calc (2:ℚ)^(Int.log 2 p - 11) ≤ 2^(-(11:ℤ)) :=
          zpow_le_zpow_right₀ (by norm_num) (by omega)
      _ = 1/2048 := by norm_num
  obtain ⟨herr1, herr2⟩ := roundHalfPos_err p hlo14
  have hub := roundHalfPos_le_pow p 0 hlo14 (by norm_num; linarith)
  refine ⟨roundHalfPos p, ?_, ?_, ?_⟩
  · rw [htp, roundH_eq_fin p h0p (by linarith)]
  · linarith
  · have h00 : (2:ℚ)^(0:ℤ) = 1 := by norm_num
    linarith [hub]

/-! ### The claims -/

/-- C1: every element of the golden tensor equals
`input[i] * tanh(ln(1 + exp(input[i])))` computed elementwise in the tensor's
half-precision representation, with the final stored value rounded to half
precision (the rounding is performed by `mulH`): the code's elementwise
computation coincides with the spec's formula for every element index and any
library implementation of the transcendentals. -/
theorem c1_golden_matches_spec_formula (eH lH tH : H16 → H16)
    (sample : Fin 8 → Fin 2048 → ℚ) (i : Fin 8) (j : Fin 2048) :
    goldenTensor eH lH tH (inputTensor sample) i j
      = mishSpecFormula eH lH tH (inputTensor sample i j) := rfl

/-- C2: after a successful run exactly the two files
`./AclNNInvocation/input/input_x.bin` and `./AclNNInvocation/output/golden.bin`
have been written, in that order, each holding the raw row-major element
buffer (no header or metadata) of 16384 half-precision elements, i.e. exactly
32768 bytes. -/
theorem c2_two_files_of_32768_bytes {ε : Type} (env : String → Option ε)
    (sample : Fin 8 → Fin 2048 → ℚ) (eH lH tH : H16 → H16)
    (hin : env inputPath = none) (hout : env goldenPath = none) :
    (runGen env sample eH lH tH).written
      = [(inputPath, flattenT (inputTensor sample)),
         (goldenPath, flattenT (goldenTensor eH lH tH (inputTensor sample)))] ∧
    (runGen env sample eH lH tH).written.length = 2 ∧
    ∀ f ∈ (runGen env sample eH lH tH).written, fileBytes f.2 = 32768 := by
  have hrun : runGen env sample eH lH tH
      = ⟨[(inputPath, flattenT (inputTensor sample)),
          (goldenPath, flattenT (goldenTensor eH lH tH (inputTensor sample)))], none⟩ := by
    unfold runGen
    rw [hin, hout]
  rw [hrun]
  refine ⟨rfl, rfl, ?_⟩
  intro f hf
  rcases List.mem_cons.mp hf with h | h
  · rw [h]
    show fileBytes (flattenT (inputTensor sample)) = 32768
    rw [fileBytes, flattenT_length]
  · rcases List.mem_cons.mp h with h2 | h2
    · rw [h2]
      show fileBytes (flattenT (goldenTensor eH lH tH (inputTensor sample))) = 32768
      rw [fileBytes, flattenT_length]
    · simp at h2

theorem c2_witness :
    (runGen (fun _ => (none : Option Unit)) (fun _ _ => 1) id id id).written
      = [(inputPath, flattenT (inputTensor fun _ _ => 1)),
         (goldenPath, flattenT (goldenTensor id id id (inputTensor fun _ _ => 1)))] ∧
    (runGen (fun _ => (none : Option Unit)) (fun _ _ => 1) id id id).written.length = 2 ∧
    ∀ f ∈ (runGen (fun _ => (none : Option Unit)) (fun _ _ => 1) id id id).written,
      fileBytes f.2 = 32768 :=
  c2_two_files_of_32768_bytes (fun _ => none) (fun _ _ => 1) id id id rfl rfl

/-- C3 (counterexample): it is not true that every stored input element lies
in the half-open interval `[1, 10)`: the draw 9.999 lies in `[1, 10)` but
binary16 round-to-nearest carries it up to exactly 10, which is on the
binary16 grid. -/
theorem c3_counterexample : ¬ (∀ (sample : Fin 8 → Fin 2048 → ℚ),
    (∀ i j, 1 ≤ sample i j ∧ sample i j < 10) →
    ∀ i j r, inputTensor sample i j = H16.fin r → 1 ≤ r ∧ r < 10) := by
  intro h
  have h10 : inputTensor (fun _ _ => 9999/1000) 0 0 = H16.fin 10 := by
    show roundH (9999/1000) = H16.fin 10
    rw [roundH_eq_fin _ (by norm_num) (by norm_num), rhp_9999]
  have hlt := (h (fun _ _ => 9999/1000) (fun _ _ => ⟨by norm_num, by norm_num⟩)
    0 0 10 h10).2
  norm_num at hlt

/-- C3 (amended): every element of the stored input tensor lies in the CLOSED
interval `[1, 10]`: a draw from `[1, 10)` is stored, after rounding to half
precision, as a finite value between 1 and 10 inclusive (rounding can reach
10 exactly but cannot pass it, 10 being representable in binary16). -/
theorem c3_stored_in_closed_interval (sample : Fin 8 → Fin 2048 → ℚ)
    (h : ∀ i j, 1 ≤ sample i j ∧ sample i j < 10) (i : Fin 8) (j : Fin 2048) :
    ∃ r, inputTensor sample i j = H16.fin r ∧ 1 ≤ r ∧ r ≤ 10 :=
  roundH_input_range (sample i j) (h i j).1 (h i j).2

theorem c3_witness :
    ∃ r, inputTensor (fun _ _ => 2) 0 0 = H16.fin r ∧ 1 ≤ r ∧ r ≤ 10 :=
  c3_stored_in_closed_interval (fun _ _ => 2)
    (fun _ _ => ⟨by norm_num, by norm_num⟩) 0 0

/-- C4: the input tensor produced by the generator has shape exactly
`(8, 2048)` — 8 rows of 2048 elements — hence 16384 elements in total, on
every run (i.e. for every outcome of the random draw). -/
theorem c4_fixed_shape (sample : Fin 8 → Fin 2048 → ℚ) :
    (tensorRows (inputTensor sample)).length = 8 ∧
    (∀ row ∈ tensorRows (inputTensor sample), row.length = 2048) ∧
    (flattenT (inputTensor sample)).length = 16384 :=
  ⟨tensorRows_length _, tensorRows_row_length _, flattenT_length _⟩

/-- C5: on every run the golden tensor has the same shape as the input tensor
(same number of rows, same row lengths, same flattened length) and the same
half-precision element type (both tensors are `Fin 8 → Fin 2048 → H16`, and
each golden element is the half-precision Mish image of the corresponding
input element). -/
theorem c5_golden_same_shape_dtype (eH lH tH : H16 → H16)
    (x : Fin 8 → Fin 2048 → H16) :
    (tensorRows (goldenTensor eH lH tH x)).length = (tensorRows x).length ∧
    (∀ row ∈ tensorRows (goldenTensor eH lH tH x), row.length = 2048) ∧
    (flattenT (goldenTensor eH lH tH x)).length = (flattenT x).length ∧
    ∀ i j, goldenTensor eH lH tH x i j = mishElem eH lH tH (x i j) := by
  refine ⟨?_, tensorRows_row_length _, ?_, fun i j => rfl⟩
  · rw [tensorRows_length, tensorRows_length]
  · rw [flattenT_length, flattenT_length]

/-- C6: exp overflow is unreachable: for every draw in `[1, 10)` stored in
half precision, neither the half-precision `exp`, nor the subsequent
`1 + exp`, `log`, `tanh`, or the final multiply, produces an infinity. The
library transcendentals are assumed only to return finite values inside
intervals with generous slack around the correctly-rounded ranges of the true
functions on the arguments that actually occur
(`exp [1,10] ⊆ [2.71.., 22032]`, `log [1.5, 22057] ⊆ [0.40.., 10.01]`,
`tanh [1/3, 12] ⊆ [0.32.., 1]`). -/
theorem c6_no_overflow_to_infinity (eH lH tH : H16 → H16)
    (hexp : ∀ q : ℚ, 1 ≤ q → q ≤ 10 → ∃ r, eH (.fin q) = .fin r ∧ 2 ≤ r ∧ r ≤ 22048)
    (hlog : ∀ q : ℚ, 3/2 ≤ q → q ≤ 22057 → ∃ r, lH (.fin q) = .fin r ∧ 1/3 ≤ r ∧ r ≤ 12)
    (htanh : ∀ q : ℚ, 1/3 ≤ q → q ≤ 12 → ∃ r, tH (.fin q) = .fin r ∧ 3/10 ≤ r ∧ r ≤ 1)
    (q : ℚ) (h1 : 1 ≤ q) (h2 : q < 10) :
    eH (roundH q) ≠ H16.inf ∧
    addH (H16.fin 1) (eH (roundH q)) ≠ H16.inf ∧
    lH (addH (H16.fin 1) (eH (roundH q))) ≠ H16.inf ∧
    tH (lH (addH (H16.fin 1) (eH (roundH q)))) ≠ H16.inf ∧
    mishElem eH lH tH (roundH q) ≠ H16.inf := by
  obtain ⟨x, hx, hx1, hx2⟩ := roundH_input_range q h1 h2
  obtain ⟨e1, a1, l1, t1, g, he1, ha1, hl1, ht1, hg, _⟩ :=
    mish_chain eH lH tH hexp hlog htanh x hx1 hx2
  rw [hx, he1, ha1, hl1, ht1, hg]
  refine ⟨?_, ?_, ?_, ?_, ?_⟩ <;> simp

theorem c6_witness :
    mishElem (fun _ => H16.fin 2) (fun _ => H16.fin 1) (fun _ => H16.fin (1/2))
      (roundH 2) ≠ H16.inf :=
  (c6_no_overflow_to_infinity
    (fun _ => H16.fin 2) (fun _ => H16.fin 1) (fun _ => H16.fin (1/2))
    (fun q hq1 hq2 => ⟨2, rfl, by norm_num, by norm_num⟩)
    (fun q hq1 hq2 => ⟨1, rfl, by norm_num, by norm_num⟩)
    (fun q hq1 hq2 => ⟨1/2, rfl, by norm_num, by norm_num⟩)
    2 (by norm_num) (by norm_num)).2.2.2.2

/-- C7: the golden tensor is a deterministic function of the input tensor:
for fixed library implementations of the transcendentals, equal stored input
tensors give elementwise-equal golden tensors. -/
theorem c7_golden_deterministic (eH lH tH : H16 → H16)
    (x1 x2 : Fin 8 → Fin 2048 → H16) (h : x1 = x2) :
    goldenTensor eH lH tH x1 = goldenTensor eH lH tH x2 := by
  rw [h]

theorem c7_witness :
    goldenTensor id id id (fun _ _ => H16.fin 1)
      = goldenTensor id id id (fun _ _ => H16.fin 1) :=
  c7_golden_deterministic id id id _ _ rfl

/-- C8: a run fails exactly when the environment reports a filesystem error
for one of the two target paths; the failure does not depend on the tensor
data or on the numeric library (no other validation exists), and the error
that surfaces is the environment's own error value, unmodified. -/
theorem c8_fails_iff_fs_error {ε : Type} (env : String → Option ε)
    (sample : Fin 8 → Fin 2048 → ℚ) (eH lH tH : H16 → H16) :
    ((runGen env sample eH lH tH).error = none
        ↔ env inputPath = none ∧ env goldenPath = none) ∧
    (∀ e : ε, (runGen env sample eH lH tH).error = some e
        → env inputPath = some e ∨ env goldenPath = some e) ∧
    (∀ (sample2 : Fin 8 → Fin 2048 → ℚ) (eH2 lH2 tH2 : H16 → H16),
        (runGen env sample eH lH tH).error
          = (runGen env sample2 eH2 lH2 tH2).error) := by
  rcases hin : env inputPath with _ | e1 <;> rcases hout : env goldenPath with _ | e2 <;>
    simp [runGen, hin, hout]

/-- C9: the input file is written strictly before the golden file: when the
input directory is writable but writing the golden file fails, the run has
already written `input_x.bin` (and only it) and then stops with the golden
write's error — a failed run leaves the partial artifact state the claim
describes. -/
theorem c9_input_written_before_golden {ε : Type} (env : String → Option ε)
    (sample : Fin 8 → Fin 2048 → ℚ) (eH lH tH : H16 → H16) (e : ε)
    (hin : env inputPath = none) (hout : env goldenPath = some e) :
    (runGen env sample eH lH tH).written
        = [(inputPath, flattenT (inputTensor sample))] ∧
    (runGen env sample eH lH tH).error = some e := by
  have hrun : runGen env sample eH lH tH
      = ⟨[(inputPath, flattenT (inputTensor sample))], some e⟩ := by
    unfold runGen
    rw [hin, hout]
  rw [hrun]
  exact ⟨rfl, rfl⟩

theorem c9_witness :
    (runGen (fun p => if p = inputPath then none else some ()) (fun _ _ => 1)
        id id id).written
      = [(inputPath, flattenT (inputTensor fun _ _ => 1))] ∧
    (runGen (fun p => if p = inputPath then none else some ()) (fun _ _ => 1)
        id id id).error = some () :=
  c9_input_written_before_golden (fun p => if p = inputPath then none else some ())
    (fun _ _ => 1) id id id () (by simp) (by simp [inputPath, goldenPath])

/-- C10: every element of the golden tensor is finite and strictly positive:
for inputs drawn from `[1, 10)` (stored values in `[1, 10]`), the chain
`exp`, `1 + exp`, `log`, `tanh`, multiply stays finite and the final product
is positive — no NaN or infinity is produced. The library transcendentals
are assumed finite within the same generous interval bounds as in C6. -/
theorem c10_golden_finite_positive (eH lH tH : H16 → H16)
    (hexp : ∀ q : ℚ, 1 ≤ q → q ≤ 10 → ∃ r, eH (.fin q) = .fin r ∧ 2 ≤ r ∧ r ≤ 22048)
    (hlog : ∀ q : ℚ, 3/2 ≤ q → q ≤ 22057 → ∃ r, lH (.fin q) = .fin r ∧ 1/3 ≤ r ∧ r ≤ 12)
    (htanh : ∀ q : ℚ, 1/3 ≤ q → q ≤ 12 → ∃ r, tH (.fin q) = .fin r ∧ 3/10 ≤ r ∧ r ≤ 1)
    (sample : Fin 8 → Fin 2048 → ℚ)
    (hs : ∀ i j, 1 ≤ sample i j ∧ sample i j < 10) (i : Fin 8) (j : Fin 2048) :
    ∃ g, goldenTensor eH lH tH (inputTensor sample) i j = H16.fin g ∧ 0 < g := by
  obtain ⟨x, hx, hx1, hx2⟩ :=
    roundH_input_range (sample i j) (hs i j).1 (hs i j).2
  obtain ⟨e1, a1, l1, t1, g, he1, ha1, hl1, ht1, hg, hgpos⟩ :=
    mish_chain eH lH tH hexp hlog htanh x hx1 hx2
  show ∃ g, mishElem eH lH tH (inputTensor sample i j) = H16.fin g ∧ 0 < g
  rw [show inputTensor sample i j = H16.fin x from hx]
  exact ⟨g, hg, hgpos⟩

theorem c10_witness :
    ∃ g, goldenTensor (fun _ => H16.fin 2) (fun _ => H16.fin 1)
        (fun _ => H16.fin (1/2)) (inputTensor fun _ _ => 2) 0 0 = H16.fin g ∧ 0 < g :=
  c10_golden_finite_positive
    (fun _ => H16.fin 2) (fun _ => H16.fin 1) (fun _ => H16.fin (1/2))
    (fun q hq1 hq2 => ⟨2, rfl, by norm_num, by norm_num⟩)
    (fun q hq1 hq2 => ⟨1, rfl, by norm_num, by norm_num⟩)
    (fun q hq1 hq2 => ⟨1/2, rfl, by norm_num, by norm_num⟩)
    (fun _ _ => 2) (fun _ _ => ⟨by norm_num, by norm_num⟩) 0 0

end MishGen
